import Mathlib

/-!
Verification of the retrieval engine of a Chinese RAG question-answering system
(`rag_system.py`).  Text is modelled as `List Char` (Python strings are indexed
and measured by code point, as `len`/slicing do), similarity scores as `ℚ`, and
the external collaborators — the `jieba` segmenter, scikit-learn's numeric
kernels (`cosine_similarity`, IDF weights) and the generation service — as
function parameters.  All program logic that lives in the repository itself is
translated directly from the source.
-/

/-- Whitespace recognised by Python's `str.strip()` / `str.isspace()`,
restricted to the ASCII whitespace characters (the full Unicode set adds
further exotic code points that never interact with the claims checked here). -/
def isPySpace (c : Char) : Bool :=
  c = ' ' || c = '\t' || c = '\n' || c = '\r' || c = '\x0b' || c = '\x0c'

/-- Python `str.strip()`: drop whitespace from both ends (right end first;
the two orders agree). -/
def pstrip (l : List Char) : List Char :=
  (((l.reverse).dropWhile isPySpace).reverse).dropWhile isPySpace

/-- Sentence-terminal punctuation of the regex `[。！？]` (line 80). -/
def isTerminator (c : Char) : Bool :=
  c = '。' || c = '！' || c = '？'

/-- Python `re.split(r'[。！？]', text)` (line 80): split on terminator
characters, keeping empty segments. -/
def splitTerm : List Char → List (List Char)
  | [] => [[]]
  | c :: cs =>
    if isTerminator c then
      [] :: splitTerm cs
    else
      match splitTerm cs with
      | [] => [[c]]
      | s :: rest => (c :: s) :: rest

/-- Line 81: `[s.strip() for s in sentences if s.strip()]`. -/
def sentencesOf (text : List Char) : List (List Char) :=
  ((splitTerm text).map pstrip).filter (fun s => !s.isEmpty)

/-- The accumulation loop of `split_text_into_chunks` (lines 83-95): greedily
pack sentences into `current`, re-terminating each with `'。'`; emit the
stripped buffer when the next sentence does not fit, and flush at the end. -/
def chunkLoop (chunk_size : ℕ) : List Char → List (List Char) → List (List Char)
  | current, [] => if current.isEmpty then [] else [pstrip current]
  | current, s :: rest =>
    if current.length + s.length ≤ chunk_size then
      chunkLoop chunk_size (current ++ s ++ ['。']) rest
    else
      (if current.isEmpty then [] else [pstrip current]) ++
        chunkLoop chunk_size (s ++ ['。']) rest

/-- `split_text_into_chunks(text, chunk_size=300, overlap=50)` (lines 77-97).
The `overlap` parameter is accepted but never read by the function body. -/
def split_text_into_chunks (text : List Char) (chunk_size : ℕ := 300)
    (overlap : ℕ := 50) : List (List Char) :=
  chunkLoop chunk_size [] (sentencesOf text)

example : sentencesOf ("一二三。四五六！ 七八？？".toList) =
    [['一','二','三'], ['四','五','六'], ['七','八']] := by decide

example : split_text_into_chunks ("一二三。四五六。".toList) 3 50 =
    [['一','二','三','。'], ['四','五','六','。']] := by decide

example : split_text_into_chunks ("一二。三四。".toList) 6 50 =
    [['一','二','。','三','四','。']] := by decide

/-! ### Properties of `pstrip` -/

theorem dropWhile_eq_self_of_head? {p : α → Bool} {l : List α}
    (h : ∀ a ∈ l.head?, p a = false) : l.dropWhile p = l := by
  cases l with
  | nil => rfl
  | cons a l =>
    have : p a = false := h a rfl
    simp [List.dropWhile_cons, this]

theorem head?_dropWhile {p : α → Bool} {l : List α} :
    ∀ a ∈ (l.dropWhile p).head?, p a = false := by
  intro a ha
  have h := List.head?_dropWhile_not p l
  rw [show (l.dropWhile p).head? = some a from ha] at h
  exact h

theorem head?_pstrip {l : List Char} :
    ∀ a ∈ (pstrip l).head?, isPySpace a = false := by
  intro a ha
  exact head?_dropWhile a ha

theorem getLast?_suffix_eq {l₁ l₂ : List α} (h : l₁ <:+ l₂) (hne : l₁ ≠ []) :
    l₂.getLast? = l₁.getLast? := by
  obtain ⟨t, rfl⟩ := h
  rw [List.getLast?_append]
  cases hl : l₁.getLast? with
  | none => exact absurd (List.getLast?_eq_none_iff.mp hl) hne
  | some a => rfl

theorem getLast?_pstrip {l : List Char} :
    ∀ a ∈ (pstrip l).getLast?, isPySpace a = false := by
  intro a ha
  have hne : pstrip l ≠ [] := by
    intro h; rw [h] at ha; exact (Option.not_mem_none a) ha
  have hsuf : pstrip l <:+ ((l.reverse.dropWhile isPySpace).reverse) :=
    List.dropWhile_suffix isPySpace
  have h1 : ((l.reverse.dropWhile isPySpace).reverse).getLast? = (pstrip l).getLast? :=
    getLast?_suffix_eq hsuf hne
  rw [← h1, List.getLast?_reverse] at ha
  exact head?_dropWhile a ha

theorem pstrip_eq_self {l : List Char}
    (h1 : ∀ a ∈ l.head?, isPySpace a = false)
    (h2 : ∀ a ∈ l.getLast?, isPySpace a = false) : pstrip l = l := by
  have hinner : l.reverse.dropWhile isPySpace = l.reverse :=
    dropWhile_eq_self_of_head? (by rw [List.head?_reverse]; exact h2)
  unfold pstrip
  rw [hinner, List.reverse_reverse, dropWhile_eq_self_of_head? h1]

theorem pstrip_idem (l : List Char) : pstrip (pstrip l) = pstrip l :=
  pstrip_eq_self head?_pstrip getLast?_pstrip

theorem pstrip_append {x y : List Char} (hx : pstrip x = x) (hy : pstrip y = y) :
    pstrip (x ++ y) = x ++ y := by
  apply pstrip_eq_self
  · intro a ha
    rw [List.head?_append, Option.mem_def, Option.or_eq_some] at ha
    rcases ha with h | ⟨h1, h2⟩
    · exact head?_pstrip a (hx ▸ h)
    · exact head?_pstrip a (hy ▸ h2)
  · intro a ha
    rw [List.getLast?_append, Option.mem_def, Option.or_eq_some] at ha
    rcases ha with h | ⟨h1, h2⟩
    · exact getLast?_pstrip a (hy ▸ h)
    · exact getLast?_pstrip a (hx ▸ h2)

theorem length_pstrip_le (l : List Char) : (pstrip l).length ≤ l.length := by
  calc (pstrip l).length
      ≤ ((l.reverse.dropWhile isPySpace).reverse).length := (List.dropWhile_suffix _).length_le
    _ ≤ l.length := by
        rw [List.length_reverse]
        exact le_trans (List.dropWhile_suffix _).length_le (by rw [List.length_reverse])

theorem mem_of_mem_pstrip {c : Char} {l : List Char} (h : c ∈ pstrip l) : c ∈ l := by
  have h1 := (List.dropWhile_suffix isPySpace).subset h
  rw [List.mem_reverse] at h1
  have h2 := (List.dropWhile_suffix isPySpace).subset h1
  rwa [List.mem_reverse] at h2

/-! ### Properties of the chunker -/

theorem sentencesOf_spec {text : List Char} :
    ∀ s ∈ sentencesOf text, pstrip s = s ∧ s ≠ [] := by
  intro s hs
  rw [sentencesOf, List.mem_filter] at hs
  obtain ⟨hmem, hne⟩ := hs
  rw [List.mem_map] at hmem
  obtain ⟨x, _, rfl⟩ := hmem
  refine ⟨pstrip_idem x, ?_⟩
  simpa using hne

theorem splitTerm_no_terminator {l : List Char} :
    ∀ s ∈ splitTerm l, ∀ c ∈ s, isTerminator c = false := by
  induction l with
  | nil =>
    intro s hs c hc
    simp only [splitTerm, List.mem_singleton] at hs
    subst hs; simp at hc
  | cons a l ih =>
    intro s hs c hc
    rw [splitTerm] at hs
    by_cases ha : isTerminator a
    · rw [if_pos ha] at hs
      rcases List.mem_cons.mp hs with rfl | hs'
      · simp at hc
      · exact ih s hs' c hc
    · rw [if_neg ha] at hs
      cases hsp : splitTerm l with
      | nil =>
        rw [hsp] at hs
        simp only [List.mem_singleton] at hs
        subst hs
        rcases List.mem_cons.mp hc with rfl | h
        · exact Bool.eq_false_iff.mpr ha
        · simp at h
      | cons s₀ rest =>
        rw [hsp] at hs
        rcases List.mem_cons.mp hs with rfl | hs'
        · rcases List.mem_cons.mp hc with rfl | h
          · exact Bool.eq_false_iff.mpr ha
          · exact ih s₀ (hsp ▸ List.mem_cons_self s₀ rest) c h
        · exact ih s (hsp ▸ List.mem_cons_of_mem s₀ hs') c hc

theorem sentencesOf_no_terminator {text : List Char} :
    ∀ s ∈ sentencesOf text, ∀ c ∈ s, isTerminator c = false := by
  intro s hs c hc
  rw [sentencesOf, List.mem_filter] at hs
  obtain ⟨hmem, _⟩ := hs
  rw [List.mem_map] at hmem
  obtain ⟨x, hx, rfl⟩ := hmem
  exact splitTerm_no_terminator x hx c (mem_of_mem_pstrip hc)

theorem pstrip_fullstop_terminated {s : List Char} (hs : pstrip s = s) :
    pstrip (s ++ ['。']) = s ++ ['。'] :=
  pstrip_append hs (pstrip_eq_self (by intro a ha; simp at ha; subst ha; rfl)
    (by intro a ha; simp at ha; subst ha; rfl))

theorem chunkLoop_flatten (cs : ℕ) (current : List Char) (ss : List (List Char))
    (hcur : pstrip current = current)
    (hss : ∀ s ∈ ss, pstrip s = s ∧ s ≠ []) :
    (chunkLoop cs current ss).flatten = current ++ (ss.map (· ++ ['。'])).flatten := by
  induction ss generalizing current with
  | nil =>
    rw [chunkLoop]
    by_cases h : current.isEmpty
    · rw [if_pos h]
      simp [List.isEmpty_iff.mp h]
    · rw [if_neg h, hcur]
      simp
  | cons s rest ih =>
    have hsingle := hss s (List.mem_cons_self s rest)
    have hrest : ∀ x ∈ rest, pstrip x = x ∧ x ≠ [] :=
      fun x hx => hss x (List.mem_cons_of_mem s hx)
    have hnewfit : pstrip (current ++ s ++ ['。']) = current ++ s ++ ['。'] := by
      rw [List.append_assoc]
      exact pstrip_append hcur (pstrip_fullstop_terminated hsingle.1)
    rw [chunkLoop]
    by_cases h : current.length + s.length ≤ cs
    · rw [if_pos h, ih _ hnewfit hrest]
      simp
    · rw [if_neg h]
      by_cases hemp : current.isEmpty
      · rw [if_pos hemp]
        rw [List.nil_append, ih _ (pstrip_fullstop_terminated hsingle.1) hrest]
        simp [List.isEmpty_iff.mp hemp]
      · rw [if_neg hemp]
        rw [List.flatten_append, ih _ (pstrip_fullstop_terminated hsingle.1) hrest]
        simp [hcur]

theorem split_text_into_chunks_flatten (text : List Char) (cs ov : ℕ) :
    (split_text_into_chunks text cs ov).flatten =
      ((sentencesOf text).map (· ++ ['。'])).flatten :=
  chunkLoop_flatten cs [] (sentencesOf text) rfl sentencesOf_spec

theorem splitTerm_append_fullstop {s rest : List Char}
    (hs : ∀ c ∈ s, isTerminator c = false) :
    splitTerm (s ++ '。' :: rest) = s :: splitTerm rest := by
  induction s with
  | nil => rw [List.nil_append, splitTerm, if_pos (by decide)]
  | cons a s ih =>
    have ha : isTerminator a = false := hs a (List.mem_cons_self a s)
    have ih' := ih (fun c hc => hs c (List.mem_cons_of_mem a hc))
    rw [List.cons_append, splitTerm, if_neg (by simp [ha]), ih']

theorem splitTerm_flatten_sentences {ss : List (List Char)}
    (h : ∀ s ∈ ss, ∀ c ∈ s, isTerminator c = false) :
    splitTerm ((ss.map (· ++ ['。'])).flatten) = ss ++ [[]] := by
  induction ss with
  | nil => rfl
  | cons s rest ih =>
    have hs := h s (List.mem_cons_self s rest)
    have hrest := fun x hx => h x (List.mem_cons_of_mem s hx)
    rw [List.map_cons, List.flatten_cons, List.append_assoc, List.singleton_append,
      splitTerm_append_fullstop hs, ih hrest, List.cons_append]

theorem chunkLoop_length_le (cs : ℕ) (current : List Char) (ss : List (List Char))
    (hcur : current.length ≤ cs + 1)
    (hss : ∀ s ∈ ss, s.length ≤ cs) :
    ∀ c ∈ chunkLoop cs current ss, c.length ≤ cs + 1 := by
  induction ss generalizing current with
  | nil =>
    intro c hc
    rw [chunkLoop] at hc
    by_cases h : current.isEmpty
    · rw [if_pos h] at hc; simp at hc
    · rw [if_neg h, List.mem_singleton] at hc; subst hc
      exact le_trans (length_pstrip_le current) hcur
  | cons s rest ih =>
    intro c hc
    rw [chunkLoop] at hc
    by_cases h : current.length + s.length ≤ cs
    · rw [if_pos h] at hc
      refine ih _ ?_ (fun x hx => hss x (List.mem_cons_of_mem s hx)) c hc
      simp only [List.length_append, List.length_singleton]
      omega
    · rw [if_neg h, List.mem_append] at hc
      rcases hc with hc | hc
      · by_cases hemp : current.isEmpty
        · rw [if_pos hemp] at hc; simp at hc
        · rw [if_neg hemp, List.mem_singleton] at hc; subst hc
          exact le_trans (length_pstrip_le current) hcur
      · refine ih _ ?_ (fun x hx => hss x (List.mem_cons_of_mem s hx)) c hc
        have hlen := hss s (List.mem_cons_self s rest)
        simp only [List.length_append, List.length_singleton]
        omega

/-- C4: concatenating the chunks produced by `split_text_into_chunks` and
splitting the concatenation back on the re-inserted sentence terminators
recovers exactly the trimmed non-empty sentence sequence of the input, in
order — no sentence is dropped, duplicated, truncated, or reordered. -/
theorem chunks_preserve_sentences (text : List Char) (cs ov : ℕ) :
    (splitTerm ((split_text_into_chunks text cs ov).flatten)).filter
      (fun s => !s.isEmpty) = sentencesOf text := by
  rw [split_text_into_chunks_flatten,
    splitTerm_flatten_sentences sentencesOf_no_terminator, List.filter_append]
  have h1 : (sentencesOf text).filter (fun s => !s.isEmpty) = sentencesOf text := by
    apply List.filter_eq_self.mpr
    intro s hs
    simpa using (sentencesOf_spec s hs).2
  rw [h1]
  simp

/-- C8: the `overlap` parameter of `split_text_into_chunks` has no effect on
the produced chunks, and the chunks share no content across boundaries: their
concatenation contains each sentence of the input exactly once. -/
theorem overlap_no_effect (text : List Char) (cs o₁ o₂ : ℕ) :
    split_text_into_chunks text cs o₁ = split_text_into_chunks text cs o₂ ∧
    (split_text_into_chunks text cs o₁).flatten =
      ((sentencesOf text).map (· ++ ['。'])).flatten :=
  ⟨rfl, split_text_into_chunks_flatten text cs o₁⟩

theorem overlap_no_effect_witness :
    split_text_into_chunks ("一二三。四五六。".toList) 300 0 =
      split_text_into_chunks ("一二三。四五六。".toList) 300 99 ∧
    (split_text_into_chunks ("一二三。四五六。".toList) 300 0).flatten =
      ((sentencesOf ("一二三。四五六。".toList)).map (· ++ ['。'])).flatten :=
  overlap_no_effect ("一二三。四五六。".toList) 300 0 99

theorem chunks_preserve_sentences_witness :
    (splitTerm ((split_text_into_chunks ("一二三。四五六。".toList) 3 50).flatten)).filter
      (fun s => !s.isEmpty) = sentencesOf ("一二三。四五六。".toList) :=
  chunks_preserve_sentences ("一二三。四五六。".toList) 3 50

/-- C10: when every trimmed sentence of the input fits in `cs` characters,
every chunk produced by `split_text_into_chunks` has length at most `cs + 1`:
the admission check (line 87) ignores the terminator appended after it
(line 88), so a chunk may exceed the stated bound by exactly one character. -/
theorem chunk_length_soft_bound (text : List Char) (cs ov : ℕ)
    (h : ∀ s ∈ sentencesOf text, s.length ≤ cs) :
    ∀ c ∈ split_text_into_chunks text cs ov, c.length ≤ cs + 1 :=
  chunkLoop_length_le cs [] (sentencesOf text) (by simp) h

theorem chunk_length_soft_bound_witness :
    (∀ s ∈ sentencesOf ("一二三。四五六。".toList), s.length ≤ 3) ∧
    (∀ c ∈ split_text_into_chunks ("一二三。四五六。".toList) 3 50,
      c.length ≤ 3 + 1) :=
  ⟨by decide, chunk_length_soft_bound ("一二三。四五六。".toList) 3 50 (by decide)⟩

/-! ### Tokenizer -/

/-- The punctuation alphabet of `chinese_tokenizer` (line 158); the source
literal contains two plain ASCII double-quote characters. -/
def punctuation : List Char :=
  ['，', '。', '！', '？', '；', '：', '"', '"', '（', '）', '【', '】', '《', '》', '、']

/-- The filter condition of `chinese_tokenizer` (lines 162-166), applied to an
already-stripped word: non-empty, longer than one character, not a stop word,
not whitespace-only, not punctuation-only. -/
def keepWord (stopwords : List (List Char)) (w : List Char) : Bool :=
  !w.isEmpty && decide (1 < w.length) && !decide (w ∈ stopwords) &&
    !w.all isPySpace && !w.all (fun c => decide (c ∈ punctuation))

/-- `chinese_tokenizer` (lines 151-169).  The `jieba.cut` segmentation is an
external collaborator, so the model receives its output `words`; each word is
stripped (line 161) and appended when it passes the filter. -/
def chinese_tokenizer (stopwords : List (List Char)) (words : List (List Char)) :
    List (List Char) :=
  (words.map pstrip).filter (keepWord stopwords)

/-- C9: for every segmentation output and every stop-word set, the tokenizer
returns no whitespace-only term, no single-character (or empty) term, no
punctuation-only term, and no stop word. -/
theorem tokenizer_filters_terms (stopwords words : List (List Char))
    (w : List Char) (hw : w ∈ chinese_tokenizer stopwords words) :
    2 ≤ w.length ∧ w.all isPySpace = false ∧
      w.all (fun c => decide (c ∈ punctuation)) = false ∧ w ∉ stopwords := by
  rw [chinese_tokenizer, List.mem_filter] at hw
  obtain ⟨-, hkeep⟩ := hw
  rw [keepWord] at hkeep
  simp only [Bool.and_eq_true, Bool.not_eq_true', decide_eq_true_eq,
    decide_eq_false_iff_not] at hkeep
  obtain ⟨⟨⟨⟨-, hlen⟩, hsw⟩, hspace⟩, hpunct⟩ := hkeep
  exact ⟨hlen, hspace, hpunct, hsw⟩

theorem tokenizer_filters_terms_witness :
    (['红', '楼'] ∈ chinese_tokenizer [['的']] [['红', '楼'], ['的'], ['，']]) ∧
    (2 ≤ (['红', '楼'] : List Char).length ∧
      (['红', '楼'] : List Char).all isPySpace = false ∧
      (['红', '楼'] : List Char).all (fun c => decide (c ∈ punctuation)) = false ∧
      ['红', '楼'] ∉ [[('的' : Char)]]) :=
  ⟨by decide, tokenizer_filters_terms [['的']] [['红', '楼'], ['的'], ['，']]
    ['红', '楼'] (by decide)⟩

/-! ### Retrieval: similarity filtering, ranking and truncation

`search_relevant_chunks` (lines 236-245) computes
`valid_indices = np.where(similarities > threshold)[0]` (ascending index
order), then `valid_indices[np.argsort(similarities[valid_indices])[::-1]]`
and truncates with `[:top_k]`.  `np.argsort` is modelled as a stable ascending
sort by key (ties keep their input order, which for `valid_indices` is
ascending index order). -/

/-- Stable insertion of an index into a key-sorted list: the new element goes
in front of the first element whose key is at least as large. -/
def insertLe (key : ℕ → ℚ) (a : ℕ) : List ℕ → List ℕ
  | [] => [a]
  | b :: l => if key a ≤ key b then a :: b :: l else b :: insertLe key a l

/-- Stable ascending sort by key (insertion sort). -/
def sortLe (key : ℕ → ℚ) : List ℕ → List ℕ
  | [] => []
  | a :: l => insertLe key a (sortLe key l)

/-- The strict order realised by a stable ascending key sort of a list of
strictly increasing indices: keys ascend, and equal keys keep ascending index
order. -/
def keyLt (key : ℕ → ℚ) (i j : ℕ) : Prop :=
  key i < key j ∨ (key i = key j ∧ i < j)

theorem mem_insertLe {key : ℕ → ℚ} {a x : ℕ} {l : List ℕ} :
    x ∈ insertLe key a l ↔ x = a ∨ x ∈ l := by
  induction l with
  | nil => simp [insertLe]
  | cons b l ih =>
    rw [insertLe]
    by_cases h : key a ≤ key b
    · rw [if_pos h]; simp
    · rw [if_neg h]
      simp only [List.mem_cons, ih]
      tauto

theorem mem_sortLe {key : ℕ → ℚ} {x : ℕ} {l : List ℕ} :
    x ∈ sortLe key l ↔ x ∈ l := by
  induction l with
  | nil => simp [sortLe]
  | cons a l ih => rw [sortLe, mem_insertLe, ih]; simp

theorem keyLt_key_le {key : ℕ → ℚ} {i j : ℕ} (h : keyLt key i j) :
    key i ≤ key j := by
  rcases h with h | ⟨h, -⟩
  · exact le_of_lt h
  · exact le_of_eq h

theorem pairwise_insertLe {key : ℕ → ℚ} {a : ℕ} {l : List ℕ}
    (hl : l.Pairwise (keyLt key)) (ha : ∀ b ∈ l, a < b) :
    (insertLe key a l).Pairwise (keyLt key) := by
  induction l with
  | nil => simp [insertLe, List.pairwise_cons]
  | cons b l ih =>
    rw [List.pairwise_cons] at hl
    obtain ⟨hbl, hl'⟩ := hl
    rw [insertLe]
    by_cases h : key a ≤ key b
    · rw [if_pos h, List.pairwise_cons]
      refine ⟨?_, List.pairwise_cons.mpr ⟨hbl, hl'⟩⟩
      intro c hc
      rcases List.mem_cons.mp hc with rfl | hc'
      · rcases lt_or_eq_of_le h with hlt | heq
        · exact Or.inl hlt
        · exact Or.inr ⟨heq, ha c (List.mem_cons_self c l)⟩
      · have hbc : key b ≤ key c := keyLt_key_le (hbl c hc')
        rcases lt_or_eq_of_le (le_trans h hbc) with hlt | heq
        · exact Or.inl hlt
        · exact Or.inr ⟨heq, ha c (List.mem_cons_of_mem b hc')⟩
    · rw [if_neg h, List.pairwise_cons]
      constructor
      · intro c hc
        rcases mem_insertLe.mp hc with rfl | hc'
        · exact Or.inl (lt_of_not_le h)
        · exact hbl c hc'
      · exact ih hl' (fun c hc => ha c (List.mem_cons_of_mem b hc))

theorem pairwise_sortLe {key : ℕ → ℚ} {l : List ℕ}
    (hl : l.Pairwise (· < ·)) : (sortLe key l).Pairwise (keyLt key) := by
  induction l with
  | nil => exact List.Pairwise.nil
  | cons a l ih =>
    rw [List.pairwise_cons] at hl
    rw [sortLe]
    exact pairwise_insertLe (ih hl.2) (fun b hb => hl.1 b (mem_sortLe.mp hb))

/-- Line 239: `np.where(similarities > similarity_threshold)[0]`. -/
def validIndices (sims : List ℚ) (threshold : ℚ) : List ℕ :=
  (List.range sims.length).filter (fun i => decide (threshold < sims.getD i 0))

/-- Lines 242-245: ascending argsort of the retained similarities, reversed,
then truncated to `top_k`. -/
def searchTopIndices (sims : List ℚ) (top_k : ℕ) (threshold : ℚ) : List ℕ :=
  ((sortLe (fun i => sims.getD i 0) (validIndices sims threshold)).reverse).take top_k

/-- Lines 247-253 restricted to the data the claims are about: the result is
the list of retained chunk indices paired with their similarity scores. -/
def search_core (sims : List ℚ) (top_k : ℕ) (threshold : ℚ) : List (ℕ × ℚ) :=
  (searchTopIndices sims top_k threshold).map (fun i => (i, sims.getD i 0))

theorem mem_validIndices {sims : List ℚ} {t : ℚ} {i : ℕ} :
    i ∈ validIndices sims t ↔ i < sims.length ∧ t < sims.getD i 0 := by
  simp [validIndices, List.mem_filter, List.mem_range]

theorem mem_searchTopIndices {sims : List ℚ} {k : ℕ} {t : ℚ} {i : ℕ}
    (h : i ∈ searchTopIndices sims k t) : i < sims.length ∧ t < sims.getD i 0 := by
  rw [searchTopIndices] at h
  have h1 := List.mem_of_mem_take h
  rw [List.mem_reverse, mem_sortLe] at h1
  exact mem_validIndices.mp h1

theorem searchTopIndices_pairwise (sims : List ℚ) (k : ℕ) (t : ℚ) :
    (searchTopIndices sims k t).Pairwise
      (fun i j => keyLt (fun i => sims.getD i 0) j i) := by
  have h1 : (validIndices sims t).Pairwise (· < ·) :=
    (List.pairwise_lt_range sims.length).filter _
  have h2 : (sortLe (fun i => sims.getD i 0) (validIndices sims t)).Pairwise
      (keyLt (fun i => sims.getD i 0)) := pairwise_sortLe h1
  have h3 := List.pairwise_reverse.mpr h2
  exact List.Pairwise.sublist (List.take_sublist k _) h3

theorem search_core_mem {sims : List ℚ} {k : ℕ} {t : ℚ} {p : ℕ × ℚ}
    (h : p ∈ search_core sims k t) :
    p.1 < sims.length ∧ t < p.2 ∧ p.2 = sims.getD p.1 0 := by
  rw [search_core, List.mem_map] at h
  obtain ⟨i, hi, rfl⟩ := h
  obtain ⟨h1, h2⟩ := mem_searchTopIndices hi
  exact ⟨h1, h2, rfl⟩

theorem search_core_length (sims : List ℚ) (k : ℕ) (t : ℚ) :
    (search_core sims k t).length ≤ k := by
  rw [search_core, List.length_map, searchTopIndices, List.length_take]
  exact min_le_left _ _

theorem search_core_sorted (sims : List ℚ) (k : ℕ) (t : ℚ) :
    (search_core sims k t).Pairwise
      (fun p q => q.2 ≤ p.2 ∧ (p.2 = q.2 → q.1 < p.1)) := by
  rw [search_core, List.pairwise_map]
  refine (searchTopIndices_pairwise sims k t).imp ?_
  intro i j hij
  dsimp only [keyLt] at hij ⊢
  rcases hij with hlt | ⟨heq, hji⟩
  · refine ⟨le_of_lt hlt, fun h => absurd hlt ?_⟩
    rw [h]
    exact lt_irrefl _
  · exact ⟨le_of_eq heq, fun _ => hji⟩

theorem search_core_empty {sims : List ℚ} {k : ℕ} {t : ℚ}
    (h : ∀ x ∈ sims, x ≤ t) : search_core sims k t = [] := by
  have hv : validIndices sims t = [] := by
    rw [validIndices, List.filter_eq_nil_iff]
    intro i hi
    rw [List.mem_range] at hi
    have : sims.getD i 0 ∈ sims := by
      rw [List.getD_eq_getElem?_getD, List.getElem?_eq_getElem hi]
      exact List.getElem_mem hi
    simpa using not_lt_of_le (h _ this)
  simp [search_core, searchTopIndices, hv, sortLe]

/-! ### Vector index: n-gram analysis, transform, persistence

`TfidfVectorizer` is an external library component; the parts of its
documented contract that the repository's configuration choices feed into are
modelled here: word n-gram extraction over the tokenizer output, vocabulary
lookup, and per-column IDF weighting.  The raw (pre-normalization) weight
vector is modelled; L2 normalization is a function of this vector that fixes
the zero vector, so two queries with different raw vectors of different
support also differ after normalization. -/

structure VecConfig where
  ngram_lo : ℕ
  ngram_hi : ℕ
  vocabulary : List (List Char)
  idf : List ℚ
deriving DecidableEq

/-- All contiguous `n`-grams of the token list, joined with a single space
(the library's word n-gram analyzer). -/
def ngramsOfLen (n : ℕ) (toks : List (List Char)) : List (List Char) :=
  (List.range (toks.length + 1 - n)).map
    (fun i => List.intercalate [' '] ((toks.drop i).take n))

/-- The n-grams for every length from `ngram_lo` to `ngram_hi`. -/
def ngramsRange (lo hi : ℕ) (toks : List (List Char)) : List (List Char) :=
  (List.range (hi + 1 - lo)).flatMap (fun k => ngramsOfLen (lo + k) toks)

/-- The raw transform of a tokenized text: per vocabulary column, the n-gram
occurrence count weighted by that column's IDF value. -/
def transformRaw (cfg : VecConfig) (toks : List (List Char)) : List ℚ :=
  (cfg.vocabulary.zip cfg.idf).map
    (fun p => ((ngramsRange cfg.ngram_lo cfg.ngram_hi toks).count p.1 : ℚ) * p.2)

/-- The bundle pickled to `cache/doc_vectors.pkl` (lines 211-215). -/
structure CacheData where
  vocabulary : List (List Char)
  vectors : List (List ℚ)
  idf : List ℚ
deriving DecidableEq

/-- Lines 198-205: the vectorizer created on a fresh fit is configured with
`ngram_range=(1, 2)`. -/
def fitted_vectorizer (vocab : List (List Char)) (idf : List ℚ) : VecConfig :=
  ⟨1, 2, vocab, idf⟩

/-- Lines 211-217: the cache stores the fitted vocabulary, the document
vectors, and the IDF weights. -/
def persistIndex (cfg : VecConfig) (vectors : List (List ℚ)) : CacheData :=
  ⟨cfg.vocabulary, vectors, cfg.idf⟩

/-- Lines 176-191: the restore path rebuilds a `TfidfVectorizer` passing only
`tokenizer` and `vocabulary`, then assigns `idf_`; `ngram_range` (and
`lowercase`) keep the library defaults, so the restored analyzer extracts
unigrams only (`ngram_range=(1, 1)`). -/
def restoreIndex (c : CacheData) : VecConfig × List (List ℚ) :=
  (⟨1, 1, c.vocabulary, c.idf⟩, c.vectors)

inductive BuildError where
  | NotBuilt
deriving DecidableEq

/-- Modelled from the external library's documented behavior:
`TfidfVectorizer.fit_transform` raises `ValueError` ("empty vocabulary") when
analyzing the corpus yields no term at all — in particular when the document
list is empty.  The numeric IDF weights and TF-IDF rows involve logarithms and
L2 normalization, so they are supplied by the oracle parameters `idfOf` and
`rowOf`; they play no role in the failure behavior verified here.  Vocabulary
pruning (`max_features=5000`, `max_df=0.95`) is not modelled — it cannot make
an empty analysis non-empty. -/
def sklearn_fit_transform (tok : List Char → List (List Char))
    (idfOf : List (List Char) → List ℚ)
    (rowOf : List (List Char) → List Char → List ℚ)
    (texts : List (List Char)) : Except BuildError (VecConfig × List (List ℚ)) :=
  let vocab := (texts.flatMap (fun t => ngramsRange 1 2 (tok t))).dedup
  if vocab.isEmpty then .error .NotBuilt
  else .ok (⟨1, 2, vocab, idfOf vocab⟩, texts.map (rowOf vocab))

/-- A chunk record (lines 116-121), restricted to the fields the claims use. -/
structure ChunkRec where
  content : List Char
  source : List Char
  chunk_id : ℕ
deriving DecidableEq

/-- `build_vector_index` (lines 171-219): restore from the cache artifact when
present, otherwise fit on the chunk contents. -/
def build_vector_index (tok : List Char → List (List Char))
    (idfOf : List (List Char) → List ℚ)
    (rowOf : List (List Char) → List Char → List ℚ)
    (cache : Option CacheData) (doc_chunks : List ChunkRec) :
    Except BuildError (VecConfig × List (List ℚ)) :=
  match cache with
  | some c => .ok (restoreIndex c)
  | none => sklearn_fit_transform tok idfOf rowOf (doc_chunks.map (fun ch => ch.content))

/-! ### Search and orchestration -/

inductive RagError where
  | IndexNotReady
deriving DecidableEq

/-- `search_relevant_chunks` (lines 221-253): raise when the index is absent
(lines 229-230); otherwise vectorize the query (line 233), score it against
the document vectors with the external `cosine_similarity` kernel (line 236,
the oracle `cosine`), and filter/rank/truncate. -/
def search_relevant_chunks (tok : List Char → List (List Char))
    (cosine : List ℚ → List (List ℚ) → List ℚ)
    (vectorizer : Option VecConfig) (doc_vectors : Option (List (List ℚ)))
    (query : List Char) (top_k : ℕ) (threshold : ℚ) :
    Except RagError (List (ℕ × ℚ)) :=
  match vectorizer, doc_vectors with
  | some v, some dv =>
      .ok (search_core (cosine (transformRaw v (tok query)) dv) top_k threshold)
  | _, _ => .error .IndexNotReady

structure SourceInfo where
  source : List Char
  similarity : ℚ
  content_preview : List Char
deriving DecidableEq

structure AskPayload where
  question : List Char
  answer : List Char
  sources : List SourceInfo
deriving DecidableEq

/-- The canned answer of the no-result path (line 366). -/
def notFoundAnswer : List Char := "抱歉，在文档中没有找到与您问题相关的内容。".toList

/-- Line 382: `content[:100] + '...'` when the content exceeds 100 characters. -/
def contentPreview (content : List Char) : List Char :=
  if 100 < content.length then content.take 100 ++ "...".toList else content

/-- `ask` (lines 349-389).  The generation service is the external collaborator
`generate`; the returned boolean records whether it was invoked, mirroring the
two control-flow paths of the source. -/
def ask (tok : List Char → List (List Char))
    (cosine : List ℚ → List (List ℚ) → List ℚ)
    (vectorizer : Option VecConfig) (doc_vectors : Option (List (List ℚ)))
    (doc_chunks : List ChunkRec)
    (generate : List Char → List ChunkRec → List Char)
    (question : List Char) (top_k : ℕ) (threshold : ℚ) :
    Except RagError (AskPayload × Bool) :=
  match search_relevant_chunks tok cosine vectorizer doc_vectors question top_k threshold with
  | .error e => .error e
  | .ok results =>
    if results.isEmpty then
      .ok (⟨question, notFoundAnswer, []⟩, false)
    else
      let selected := results.map (fun p => (doc_chunks.getD p.1 ⟨[], [], 0⟩, p.2))
      .ok (⟨question, generate question (selected.map (fun q => q.1)),
        selected.map (fun q => ⟨q.1.source, q.2, contentPreview q.1.content⟩)⟩, true)

/-! ### Claims about the vector index and search -/

/-- C1 (code bug): persisting a fitted `VectorIndex` and restoring it does not
reproduce the original `transform`: the restore path drops the
`ngram_range=(1, 2)` (and `lowercase=False`) settings, so with the single
bigram vocabulary term "红 楼" (IDF weight 1) the query tokenized as
[红, 楼] transforms to the weight vector [1] before persistence but to the
zero vector [0] after restore, although the vocabulary itself is preserved. -/
theorem roundtrip_transform_differs :
    transformRaw (fitted_vectorizer [['红', ' ', '楼']] [1]) [['红'], ['楼']] = [1] ∧
      transformRaw ((restoreIndex (persistIndex
        (fitted_vectorizer [['红', ' ', '楼']] [1]) [])).1) [['红'], ['楼']] = [0] ∧
      (restoreIndex (persistIndex
        (fitted_vectorizer [['红', ' ', '楼']] [1]) [])).1.vocabulary
        = [['红', ' ', '楼']] := by
  have h1 : (ngramsRange 1 2 [['红'], ['楼']]).count ['红', ' ', '楼'] = 1 := by decide
  have h2 : (ngramsRange 1 1 [['红'], ['楼']]).count ['红', ' ', '楼'] = 0 := by decide
  refine ⟨?_, ?_, rfl⟩ <;>
    simp [transformRaw, fitted_vectorizer, restoreIndex, persistIndex, h1, h2]

/-- C6: building the vector index with no cache artifact present on an empty
chunk sequence fails with the NotBuilt error rather than producing an index. -/
theorem build_vector_index_empty_fails (tok : List Char → List (List Char))
    (idfOf : List (List Char) → List ℚ)
    (rowOf : List (List Char) → List Char → List ℚ) :
    build_vector_index tok idfOf rowOf none [] = .error .NotBuilt := rfl

theorem build_vector_index_empty_fails_witness :
    build_vector_index (fun _ => []) (fun _ => []) (fun _ _ => []) none []
      = .error .NotBuilt :=
  build_vector_index_empty_fails (fun _ => []) (fun _ => []) (fun _ _ => [])

/-- C7: calling `search_relevant_chunks` before the vector index has been
built or restored (vectorizer or document vectors absent) fails with the
IndexNotReady error, for every query, `top_k` and threshold. -/
theorem search_requires_index (tok : List Char → List (List Char))
    (cosine : List ℚ → List (List ℚ) → List ℚ)
    (v : Option VecConfig) (dv : Option (List (List ℚ)))
    (query : List Char) (k : ℕ) (t : ℚ)
    (h : v = none ∨ dv = none) :
    search_relevant_chunks tok cosine v dv query k t = .error .IndexNotReady := by
  rcases h with rfl | rfl
  · cases dv <;> rfl
  · cases v <;> rfl

theorem search_requires_index_witness :
    search_relevant_chunks (fun _ => []) (fun _ _ => []) (none : Option VecConfig)
      (some []) [] 10 0 = .error .IndexNotReady :=
  search_requires_index (fun _ => []) (fun _ _ => []) none (some []) [] 10 0 (Or.inl rfl)

/-- C3: every result of a successful search strictly exceeds the threshold,
at most `top_k` results are returned, similarities are non-increasing along
the result list, and when no similarity exceeds the threshold the result is
the empty list rather than an error. -/
theorem search_contract (tok : List Char → List (List Char))
    (cosine : List ℚ → List (List ℚ) → List ℚ)
    (v : Option VecConfig) (dv : Option (List (List ℚ)))
    (query : List Char) (k : ℕ) (t : ℚ) (results : List (ℕ × ℚ))
    (h : search_relevant_chunks tok cosine v dv query k t = .ok results) :
    (∀ p ∈ results, t < p.2) ∧ results.length ≤ k ∧
      results.Pairwise (fun p q => q.2 ≤ p.2) ∧
      (∀ v' dv', v = some v' → dv = some dv' →
        (∀ x ∈ cosine (transformRaw v' (tok query)) dv', x ≤ t) → results = []) := by
  cases v with
  | none => cases dv <;> simp [search_relevant_chunks] at h
  | some vc =>
    cases dv with
    | none => simp [search_relevant_chunks] at h
    | some dvc =>
      rw [search_relevant_chunks] at h
      injection h with h
      subst h
      refine ⟨?_, search_core_length _ _ _, ?_, ?_⟩
      · intro p hp
        exact (search_core_mem hp).2.1
      · exact (search_core_sorted _ _ _).imp (fun hpq => hpq.1)
      · intro v' dv' hv hdv hall
        injection hv with hv
        injection hdv with hdv
        subst hv; subst hdv
        exact search_core_empty hall

theorem search_contract_witness :
    (∀ p ∈ [((0 : ℕ), (3 : ℚ))], (0 : ℚ) < p.2) ∧
      [((0 : ℕ), (3 : ℚ))].length ≤ 1 ∧
      List.Pairwise (fun p q : ℕ × ℚ => q.2 ≤ p.2) [((0 : ℕ), (3 : ℚ))] := by
  have h := search_contract (fun _ => []) (fun _ _ => [3, 1])
    (some ⟨1, 1, [], []⟩) (some []) [] 1 0 [((0 : ℕ), (3 : ℚ))] (by rfl)
  exact ⟨h.1, h.2.1, h.2.2.1⟩

/-- C2 is false as stated: two results with equal similarity appear in
descending, not ascending, original index order — reversing the ascending
argsort (line 242) also reverses the relative order of ties.  With two chunks
of equal similarity 1 the result list is [(1, 1), (0, 1)]. -/
theorem search_tie_order_cex :
    search_relevant_chunks (fun _ => []) (fun _ _ => [1, 1])
        (some ⟨1, 1, [], []⟩) (some []) [] 10 0 = .ok [(1, 1), (0, 1)] ∧
      ¬ List.Pairwise (fun p q : ℕ × ℚ => p.2 = q.2 → p.1 < q.1)
          [((1 : ℕ), (1 : ℚ)), (0, 1)] :=
  ⟨by rfl, by decide⟩

/-- C2 (amended): in the sequence returned by `search_relevant_chunks`, any
two results with equal similarity scores appear in descending order of their
original chunk indices (the reversal of the stable ascending argsort reverses
ties), and the sequence is truncated to at most `top_k` entries. -/
theorem search_tie_order (tok : List Char → List (List Char))
    (cosine : List ℚ → List (List ℚ) → List ℚ)
    (v : Option VecConfig) (dv : Option (List (List ℚ)))
    (query : List Char) (k : ℕ) (t : ℚ) (results : List (ℕ × ℚ))
    (h : search_relevant_chunks tok cosine v dv query k t = .ok results) :
    results.length ≤ k ∧
      results.Pairwise (fun p q => p.2 = q.2 → q.1 < p.1) := by
  cases v with
  | none => cases dv <;> simp [search_relevant_chunks] at h
  | some vc =>
    cases dv with
    | none => simp [search_relevant_chunks] at h
    | some dvc =>
      rw [search_relevant_chunks] at h
      injection h with h
      subst h
      exact ⟨search_core_length _ _ _, (search_core_sorted _ _ _).imp (fun hpq => hpq.2)⟩

theorem search_tie_order_witness :
    [((1 : ℕ), (1 : ℚ)), (0, 1)].length ≤ 10 ∧
      List.Pairwise (fun p q : ℕ × ℚ => p.2 = q.2 → q.1 < p.1)
        [((1 : ℕ), (1 : ℚ)), (0, 1)] :=
  search_tie_order (fun _ => []) (fun _ _ => [1, 1]) (some ⟨1, 1, [], []⟩)
    (some []) [] 10 0 [((1 : ℕ), (1 : ℚ)), (0, 1)] (by rfl)

/-- C5: when search returns no relevant chunks, `ask` returns the canned
"not found" answer with an empty sources list, and the generation collaborator
is not invoked (the invocation flag is `false`). -/
theorem ask_not_found (tok : List Char → List (List Char))
    (cosine : List ℚ → List (List ℚ) → List ℚ)
    (v : Option VecConfig) (dv : Option (List (List ℚ)))
    (doc_chunks : List ChunkRec)
    (generate : List Char → List ChunkRec → List Char)
    (question : List Char) (k : ℕ) (t : ℚ)
    (h : search_relevant_chunks tok cosine v dv question k t = .ok []) :
    ask tok cosine v dv doc_chunks generate question k t =
      .ok (⟨question, notFoundAnswer, []⟩, false) := by
  rw [ask, h]
  rfl

theorem ask_not_found_witness :
    ask (fun _ => []) (fun _ _ => []) (some ⟨1, 1, [], []⟩) (some [])
      [] (fun _ _ => []) [] 10 0 = .ok (⟨[], notFoundAnswer, []⟩, false) :=
  ask_not_found (fun _ => []) (fun _ _ => []) (some ⟨1, 1, [], []⟩) (some [])
    [] (fun _ _ => []) [] 10 0 (by rfl)
